import Mathlib

/-!
Verification of the PyGEP core: the Karva gene (`pygep/gene/karva.py`) and
the population scheduler (`pygep/population.py`), shallowly embedded in Lean.

Alleles are functions (identified by display name and arity, with behaviour
supplied by an environment, mirroring Python callables compared by identity),
string terminals (resolved by attribute lookup on a context object), or
literal constants.
-/

set_option autoImplicit false

namespace PyGep

/-- One locus of a Karva gene: a function symbol (callable with a fixed
arity, from `func_code.co_argcount`), a string terminal, or a constant. -/
inductive Allele (α : Type) where
  | func (name : String) (ar : Nat)
  | term (name : String)
  | const (val : α)
deriving DecidableEq, Repr

/-- Number of arguments an allele consumes: `co_argcount` for a callable,
`0` for terminals and constants (only callables add to `next_args`). -/
def Allele.arity {α : Type} : Allele α → Nat
  | .func _ n => n
  | .term _ => 0
  | .const _ => 0

/-- Total argument count of a list of alleles. -/
def sumArities {α : Type} (alleles : List (Allele α)) : Nat :=
  (alleles.map Allele.arity).sum

/-- `slotsNeeded alleles k` is `1 + Σ arity` over the first `k` alleles: the
number of tree slots the prefix of length `k` must fill (the root plus every
argument demanded by a function in the prefix). -/
def slotsNeeded {α : Type} (alleles : List (Allele α)) (k : Nat) : Nat :=
  1 + sumArities (alleles.take k)

/-- The `while args:` loop of `KarvaGene._find_coding`, with explicit fuel
(each iteration consumes at least one allele, so `length + 2` rounds always
suffice) and an explicit bounds check standing in for Python's `IndexError`
when `self.alleles[index]` runs past the end.  One iteration consumes the
`args` alleles of the current level and sums their required arguments. -/
def codingLoop {α : Type} (alleles : List (Allele α)) :
    Nat → Nat → Nat → Option Nat
  | 0, _, _ => none
  | fuel + 1, index, args =>
    if args = 0 then some (index - 1)
    else if index + args ≤ alleles.length then
      codingLoop alleles fuel (index + args)
        (sumArities ((alleles.drop index).take args))
    else none

/-- `KarvaGene._find_coding`: starts at `index, args = 0, 1`; on success
yields the last coding index `index - 1`. -/
def findCoding {α : Type} (alleles : List (Allele α)) : Option Nat :=
  codingLoop alleles (alleles.length + 2) 0 1

theorem sumArities_append {α : Type} (l₁ l₂ : List (Allele α)) :
    sumArities (l₁ ++ l₂) = sumArities l₁ + sumArities l₂ := by
  simp [sumArities]

theorem slotsNeeded_add {α : Type} (alleles : List (Allele α)) (k m : Nat) :
    slotsNeeded alleles (k + m)
      = slotsNeeded alleles k + sumArities ((alleles.drop k).take m) := by
  simp [slotsNeeded, List.take_add, sumArities_append, Nat.add_assoc]

theorem slotsNeeded_mono {α : Type} (alleles : List (Allele α)) {k j : Nat}
    (h : k ≤ j) : slotsNeeded alleles k ≤ slotsNeeded alleles j := by
  have hj : j = k + (j - k) := by omega
  rw [hj, slotsNeeded_add]
  exact Nat.le_add_right _ _

theorem slotsNeeded_pos {α : Type} (alleles : List (Allele α)) (k : Nat) :
    1 ≤ slotsNeeded alleles k := by
  simp [slotsNeeded]

/-- Loop invariant for `codingLoop`: if `index` alleles have been consumed,
`index + args` equals the slots the consumed prefix demands, and no shorter
prefix closes, then a successful run returns the least closing point. -/
theorem codingLoop_sound {α : Type} (alleles : List (Allele α)) :
    ∀ fuel index args c : Nat,
      index ≤ alleles.length →
      index + args = slotsNeeded alleles index →
      (∀ k, k < index → slotsNeeded alleles k ≠ k) →
      codingLoop alleles fuel index args = some c →
      c < alleles.length ∧ slotsNeeded alleles (c + 1) = c + 1 ∧
        ∀ k, k < c + 1 → slotsNeeded alleles k ≠ k := by
  intro fuel
  induction fuel with
  | zero => intro index args c _ _ _ h; simp [codingLoop] at h
  | succ fuel ih =>
    intro index args c hbound hinv hmin hrun
    rw [codingLoop] at hrun
    by_cases hargs : args = 0
    · rw [if_pos hargs] at hrun
      have hc : c = index - 1 := by
        have := Option.some.inj hrun
        omega
      subst hargs
      have hidx : index = slotsNeeded alleles index := by omega
      have hpos : 1 ≤ index := by
        have := slotsNeeded_pos alleles index
        omega
      have hc1 : c + 1 = index := by omega
      refine ⟨by omega, by rw [hc1]; omega, ?_⟩
      intro k hk
      exact hmin k (by omega)
    · rw [if_neg hargs] at hrun
      by_cases hguard : index + args ≤ alleles.length
      · rw [if_pos hguard] at hrun
        refine ih (index + args) _ c hguard ?_ ?_ hrun
        · rw [slotsNeeded_add, ← hinv]
        · intro k hk
          by_cases hki : k < index
          · exact hmin k hki
          · have hmono := slotsNeeded_mono alleles (k := index) (j := k)
              (by omega)
            omega
      · rw [if_neg hguard] at hrun
        exact absurd hrun (by simp)

theorem findCoding_sound {α : Type} (alleles : List (Allele α))
    (c : Nat) (h : findCoding alleles = some c) :
    c < alleles.length ∧ slotsNeeded alleles (c + 1) = c + 1 ∧
      ∀ k, k < c + 1 → slotsNeeded alleles k ≠ k := by
  refine codingLoop_sound alleles (alleles.length + 2) 0 1 c
    (Nat.zero_le _) ?_ (by omega) h
  simp [slotsNeeded, sumArities]

/-- C1: for a well-formed gene (one whose construction succeeded, i.e.
`_find_coding` terminated in bounds), the coding index satisfies
`coding < len(alleles)`, the prefix `alleles[0..coding]` supplies exactly as
many slots as its functions demand (`slotsNeeded = coding + 1`), and
`coding` is minimal: no shorter prefix closes. -/
theorem coding_region_correct {α : Type} (alleles : List (Allele α))
    (c : Nat) (h : findCoding alleles = some c) :
    c < alleles.length ∧ slotsNeeded alleles (c + 1) = c + 1 ∧
      ∀ k, k < c + 1 → slotsNeeded alleles k ≠ k :=
  findCoding_sound alleles c h

/-- Witness for C1 at the gene `[add, 'x', 3]` with `add` of arity 2. -/
theorem coding_region_correct_witness :
    findCoding [Allele.func "add" 2, Allele.term "x",
        Allele.const (3 : Int)] = some 2 ∧
      (2 < 3 ∧
        slotsNeeded [Allele.func "add" 2, Allele.term "x",
          Allele.const (3 : Int)] (2 + 1) = 2 + 1 ∧
        ∀ k, k < 2 + 1 →
          slotsNeeded [Allele.func "add" 2, Allele.term "x",
            Allele.const (3 : Int)] k ≠ k) := by
  constructor
  · decide
  · have h := coding_region_correct
      [Allele.func "add" 2, Allele.term "x", Allele.const (3 : Int)] 2
      (by decide)
    simpa using h

/-- `_value` inside `KarvaGene.__call__`: `None` for a callable, the
literal itself for a non-string, `getattr(obj, allele)` for a string
terminal (an absent attribute raises `AttributeError`, modelled as
`.error ()`). -/
def value {α : Type} (attrs : String → Option α) :
    Allele α → Except Unit (Option α)
  | .func _ _ => .ok none
  | .const v => .ok (some v)
  | .term n =>
    match attrs n with
    | some v => .ok (some v)
    | none => .error ()

/-- The comprehension `[_value(a) for a in self.alleles]`, evaluated left
to right, stopping at the first raised error.  It ranges over ALL alleles
of the gene, not only the coding region. -/
def buildEvaluation {α : Type} (attrs : String → Option α) :
    List (Allele α) → Except Unit (List (Option α))
  | [] => .ok []
  | a :: rest =>
    match value attrs a, buildEvaluation attrs rest with
    | .ok v, .ok vs => .ok (v :: vs)
    | .error e, _ => .error e
    | _, .error e => .error e

/-- Extracts the values of a slice of evaluation slots; a `None` slot fed
to a function call (possible only on malformed genotypes) is an error. -/
def extractArgs {α : Type} : List (Option α) → Option (List α)
  | [] => some []
  | none :: _ => none
  | some v :: rest =>
    match extractArgs rest with
    | some vs => some (v :: vs)
    | none => none

/-- The reverse sweep of `KarvaGene.__call__`: `k` counts the positions
`k-1, …, 0` still to visit (`for i in reversed(xrange(coding + 1))` starts
at `k = coding + 1`), `index` is the argument cursor.  A function allele
consumes `evaluation[index - num : index]`, writes its return value into
slot `k-1`, and moves the cursor down by its arity.  A cursor outside
`[num, len]` (Python's clamped or end-relative slice would then misfeed the
call) is modelled as an error. -/
def evalLoop {α : Type} (env : String → List α → α)
    (alleles : List (Allele α)) :
    Nat → List (Option α) → Nat → Except Unit (List (Option α) × Nat)
  | 0, ev, index => .ok (ev, index)
  | k + 1, ev, index =>
    match alleles[k]? with
    | none => .error ()
    | some (Allele.term _) => evalLoop env alleles k ev index
    | some (Allele.const _) => evalLoop env alleles k ev index
    | some (Allele.func name num) =>
      if num ≤ index ∧ index ≤ ev.length then
        match extractArgs ((ev.drop (index - num)).take num) with
        | none => .error ()
        | some args =>
          evalLoop env alleles k (ev.set k (some (env name args)))
            (index - num)
      else .error ()

/-- `KarvaGene.__call__` without the memo wrapper: build the evaluation
list over all alleles, run the reverse sweep over the coding region, and
return slot 0.  `env` supplies the behaviour of named function alleles. -/
def callGene {α : Type} (env : String → List α → α)
    (alleles : List (Allele α)) (coding : Nat)
    (attrs : String → Option α) : Except Unit α :=
  match buildEvaluation attrs alleles with
  | .error e => .error e
  | .ok ev =>
    match evalLoop env alleles (coding + 1) ev (coding + 1) with
    | .error e => .error e
    | .ok (ev', _) =>
      match ev'[0]? with
      | some (some v) => .ok v
      | _ => .error ()

/-- Display name of an allele in `__repr__`: `symbol` / `__name__` for a
callable, the string itself for a terminal, `str(allele)` for a constant
(`showC` stands for `str`). -/
def alleleName {α : Type} (showC : α → String) : Allele α → String
  | .func n _ => n
  | .term n => n
  | .const v => showC v

/-- `KarvaGene.__repr__`: one glyph per allele; a name whose length is not
exactly one character is wrapped in braces. -/
def reprGene {α : Type} (showC : α → String)
    (alleles : List (Allele α)) : String :=
  alleles.foldl
    (fun s a =>
      let n := alleleName showC a
      s ++ (if n.length = 1 then n else "\x7b" ++ n ++ "\x7d")) ""

/-- A `KarvaGene` instance: alleles, head length, the `coding` index set by
`_find_coding`, and the per-instance memoization table of `@memoize`
(modelled from the spec, see `callMemo`). -/
structure GeneState (α : Type) where
  alleles : List (Allele α)
  head : Nat
  coding : Nat
  memo : List (Nat × α)
deriving DecidableEq

/-- A context object passed to `__call__`: an identity (Python `id()`)
plus named attributes. -/
structure Ctx (α : Type) where
  ident : Nat
  attrs : String → Option α

/-- `KarvaGene.__init__`: store alleles and head, then run `_find_coding`
(which raises on a malformed genotype, modelled as `none`).  A fresh gene
has no memoized results. -/
def mkGene {α : Type} (alleles : List (Allele α)) (head : Nat) :
    Option (GeneState α) :=
  match findCoding alleles with
  | some c => some ⟨alleles, head, c, []⟩
  | none => none

/-- Modelled from the spec: the `@memoize` decorator of `pygep.util`
(whose source is not part of this repository) caches results per gene
instance, keyed by the identity of the context object; a repeated call
with the same context object returns the cached value without
re-evaluating.  The Bool reports whether the evaluation algorithm ran. -/
def callMemo {α : Type} (env : String → List α → α) (g : GeneState α)
    (c : Ctx α) : Except Unit α × GeneState α × Bool :=
  match g.memo.lookup c.ident with
  | some v => (.ok v, g, false)
  | none =>
    match callGene env g.alleles g.coding c.attrs with
    | .ok v => (.ok v, { g with memo := (c.ident, v) :: g.memo }, true)
    | .error e => (.error e, g, true)

/-- The example gene `[add, 'x', 3]` with `add` named "add". -/
def exAlleles : List (Allele Int) := [.func "add" 2, .term "x", .const 3]

/-- The same gene when `add`'s display symbol is the single character +. -/
def exAllelesPlus : List (Allele Int) :=
  [.func "+" 2, .term "x", .const 3]

/-- Environment: both names denote binary addition. -/
def exEnv : String → List Int → Int
  | _, [a, b] => a + b
  | _, _ => 0

/-- A context object whose attribute `x` equals 5. -/
def exCtx : Ctx Int := ⟨1, fun n => if n = "x" then some 5 else none⟩

/-- C2: for the gene `[add, 'x', 3]` with head 1 and `add` of arity 2, the
coding index computed at construction is 2; `repr` is `{add}x3` for the
multi-character name and `+x3` for the single-character symbol; calling
the gene on a context with `x = 5` returns 8. -/
theorem example_gene_behaviour :
    mkGene exAlleles 1 = some ⟨exAlleles, 1, 2, []⟩ ∧
    reprGene toString exAlleles = "\x7badd\x7dx3" ∧
    reprGene toString exAllelesPlus = "+x3" ∧
    (callMemo exEnv ⟨exAlleles, 1, 2, []⟩ exCtx).1 = .ok 8 := by
  refine ⟨rfl, ?_, ?_, rfl⟩ <;> decide

/-- Gene whose tail holds a terminal beyond the coding region: alleles
`[1, 'y']`, so `coding = 0` and `'y'` is junk. -/
def tailAlleles : List (Allele Int) := [.const 1, .term "y"]

/-- A context carrying the junk terminal's attribute. -/
def tailCtx : String → Option Int := fun n => if n = "y" then some 7 else none

/-- A context with no attributes at all. -/
def emptyCtx : String → Option Int := fun _ => none

/-- C3 counterexample: on the gene `[1, 'y']` (coding = 0) the results
array built in step 1 has length 2, not `coding + 1 = 1`, and the junk
terminal `'y'` IS resolved against the context: with `'y'` missing the
call raises even though `'y'` lies beyond the coding region. -/
theorem evaluation_length_counterexample :
    findCoding tailAlleles = some 0 ∧
    buildEvaluation tailCtx tailAlleles = .ok [some 1, some 7] ∧
    ([some (1 : Int), some 7] : List (Option Int)).length ≠ 0 + 1 ∧
    callGene exEnv tailAlleles 0 emptyCtx = .error () := by
  refine ⟨rfl, rfl, by decide, rfl⟩

theorem buildEvaluation_props {α : Type} (attrs : String → Option α)
    (alleles : List (Allele α)) :
    (∀ ev, buildEvaluation attrs alleles = .ok ev →
      ev.length = alleles.length) ∧
    ((∃ n, Allele.term n ∈ alleles ∧ attrs n = none) →
      buildEvaluation attrs alleles = .error ()) := by
  induction alleles with
  | nil =>
    refine ⟨?_, ?_⟩
    · intro ev h
      simp [buildEvaluation] at h
      simp [← h]
    · rintro ⟨n, hmem, -⟩
      simp at hmem
  | cons a rest ih =>
    refine ⟨?_, ?_⟩
    · intro ev h
      rw [buildEvaluation] at h
      cases hv : value attrs a with
      | error e => rw [hv] at h; exact absurd h (by simp)
      | ok v =>
        cases hr : buildEvaluation attrs rest with
        | error e => rw [hv, hr] at h; exact absurd h (by simp)
        | ok vs =>
          rw [hv, hr] at h
          have hev : v :: vs = ev := Except.ok.inj h
          rw [← hev]
          simp [ih.1 vs hr]
    · rintro ⟨n, hmem, hnone⟩
      rw [buildEvaluation]
      rcases List.mem_cons.mp hmem with hhead | htail
      · subst hhead
        rw [show value attrs (Allele.term n) = .error () by
          simp [value, hnone]]
        cases buildEvaluation attrs rest <;> rfl
      · have hrest := ih.2 ⟨n, htail, hnone⟩
        rw [hrest]
        cases value attrs a <;> rfl

/-- C3 amended: the flat results array built in step 1 has the same length
as the WHOLE allele sequence, and value resolution (including getattr
terminal lookup) is performed for every allele: a terminal with a missing
context attribute raises even when it lies beyond the coding region. -/
theorem evaluation_length_amended {α : Type} (attrs : String → Option α)
    (alleles : List (Allele α)) :
    (∀ ev, buildEvaluation attrs alleles = .ok ev →
      ev.length = alleles.length) ∧
    ((∃ n, Allele.term n ∈ alleles ∧ attrs n = none) →
      buildEvaluation attrs alleles = .error ()) :=
  buildEvaluation_props attrs alleles

/-- Witness for the C3 amended theorem on the gene `[1, 'y']`. -/
theorem evaluation_length_amended_witness :
    ([some (1 : Int), some 7] : List (Option Int)).length
        = tailAlleles.length ∧
    buildEvaluation emptyCtx tailAlleles = .error () := by
  constructor
  · exact (evaluation_length_amended tailCtx tailAlleles).1
      [some 1, some 7] rfl
  · exact (evaluation_length_amended emptyCtx tailAlleles).2
      ⟨"y", by decide, rfl⟩

/-- Python truthiness of the `new` variable in `derive` (`if not new`):
falsy while it is still `None`, or (unreachably) an empty list. -/
def pyFalsy {α : Type} : Option (List (Allele α)) → Bool
  | none => true
  | some l => l.isEmpty

/-- One slice write of `derive`: the first actual change rebuilds from the
original (`self[:index] + alleles + self[index+l:]`), later ones assign
into the working copy (`new[index:index+l] = alleles`).  Python slices
clamp at the ends, which `take`/`drop` reproduce. -/
def applyChange {α : Type} (orig : List (Allele α))
    (new : Option (List (Allele α))) (index : Nat)
    (repl : List (Allele α)) : List (Allele α) :=
  match new with
  | none => orig.take index ++ repl ++ orig.drop (index + repl.length)
  | some nv =>
    if nv.isEmpty then
      orig.take index ++ repl ++ orig.drop (index + repl.length)
    else nv.take index ++ repl ++ nv.drop (index + repl.length)

/-- The edit loop of `KarvaGene.derive`: each `(index, repl)` pair is
compared against the ORIGINAL alleles (`self[index:index+l] != alleles`);
an actual change writes through `applyChange` and, at or before the
coding index, clears the `same` flag. -/
def deriveLoop {α : Type} [DecidableEq α] (orig : List (Allele α))
    (coding : Nat) :
    List (Nat × List (Allele α)) → Option (List (Allele α)) → Bool →
      Option (List (Allele α)) × Bool
  | [], new, same => (new, same)
  | (index, repl) :: rest, new, same =>
    if (orig.drop index).take repl.length = repl then
      deriveLoop orig coding rest new same
    else
      deriveLoop orig coding rest (some (applyChange orig new index repl))
        (same && decide (coding < index))

/-- What `derive` hands back: Python returns either the receiver itself
(`return self`, identity-equal) or a freshly created gene object. -/
inductive DeriveResult (α : Type) where
  | selfGene
  | newGene (g : GeneState α)
deriving DecidableEq

/-- `KarvaGene.derive`: applies the edits; returns the receiver when no
edit was an actual change; otherwise shallow-copies the gene with the new
alleles (sharing `coding` and the memo table) and, when the coding region
was touched, reruns `_find_coding` (whose failure on a malformed result
is `none`) and deletes the memoized results. -/
def derive {α : Type} [DecidableEq α] (g : GeneState α)
    (changes : List (Nat × List (Allele α))) : Option (DeriveResult α) :=
  let res := deriveLoop g.alleles g.coding changes none true
  if pyFalsy res.1 then some .selfGene
  else
    let nv := res.1.getD []
    if res.2 then some (.newGene { g with alleles := nv })
    else
      match findCoding nv with
      | some c => some (.newGene ⟨nv, g.head, c, []⟩)
      | none => none

theorem deriveLoop_noop {α : Type} [DecidableEq α]
    (orig : List (Allele α)) (coding : Nat) :
    ∀ (changes : List (Nat × List (Allele α)))
      (new : Option (List (Allele α))) (same : Bool),
      (∀ p ∈ changes, (orig.drop p.1).take p.2.length = p.2) →
      deriveLoop orig coding changes new same = (new, same) := by
  intro changes
  induction changes with
  | nil => intro new same _; rfl
  | cons p rest ih =>
    intro new same h
    obtain ⟨index, repl⟩ := p
    rw [deriveLoop, if_pos (h _ (List.mem_cons_self _ _))]
    exact ih new same fun q hq => h q (List.mem_cons_of_mem _ hq)

theorem deriveLoop_same_false {α : Type} [DecidableEq α]
    (orig : List (Allele α)) (coding : Nat) :
    ∀ (changes : List (Nat × List (Allele α)))
      (new : Option (List (Allele α))),
      (deriveLoop orig coding changes new false).2 = false := by
  intro changes
  induction changes with
  | nil => intro new; rfl
  | cons p rest ih =>
    intro new
    obtain ⟨index, repl⟩ := p
    rw [deriveLoop]
    by_cases h : (orig.drop index).take repl.length = repl
    · rw [if_pos h]; exact ih new
    · rw [if_neg h]; simpa using ih _

theorem deriveLoop_same_of_tail {α : Type} [DecidableEq α]
    (orig : List (Allele α)) (coding : Nat) :
    ∀ (changes : List (Nat × List (Allele α)))
      (new : Option (List (Allele α))),
      (∀ p ∈ changes,
        (orig.drop p.1).take p.2.length ≠ p.2 → coding < p.1) →
      (deriveLoop orig coding changes new true).2 = true := by
  intro changes
  induction changes with
  | nil => intro new _; rfl
  | cons p rest ih =>
    intro new h
    obtain ⟨index, repl⟩ := p
    rw [deriveLoop]
    by_cases hch : (orig.drop index).take repl.length = repl
    · rw [if_pos hch]
      exact ih new fun q hq => h q (List.mem_cons_of_mem _ hq)
    · rw [if_neg hch]
      have hgt : coding < index := h _ (List.mem_cons_self _ _) hch
      simpa [hgt] using ih (some (applyChange orig new index repl))
        fun q hq => h q (List.mem_cons_of_mem _ hq)

theorem deriveLoop_false_of_coding_edit {α : Type} [DecidableEq α]
    (orig : List (Allele α)) (coding : Nat) :
    ∀ (changes : List (Nat × List (Allele α)))
      (new : Option (List (Allele α))) (same : Bool),
      (∃ p ∈ changes,
        (orig.drop p.1).take p.2.length ≠ p.2 ∧ p.1 ≤ coding) →
      (deriveLoop orig coding changes new same).2 = false := by
  intro changes
  induction changes with
  | nil =>
    intro new same h
    obtain ⟨p, hp, -⟩ := h
    simp at hp
  | cons q rest ih =>
    intro new same h
    obtain ⟨p, hp, hact, hle⟩ := h
    obtain ⟨index, repl⟩ := q
    rw [deriveLoop]
    rcases List.mem_cons.mp hp with heq | htail
    · subst heq
      rw [if_neg hact]
      have : (same && decide (coding < index)) = false := by
        simp; omega
      rw [this]
      exact deriveLoop_same_false orig coding rest _
    · by_cases hch : (orig.drop index).take repl.length = repl
      · rw [if_pos hch]
        exact ih new same ⟨p, htail, hact, hle⟩
      · rw [if_neg hch]
        exact ih _ _ ⟨p, htail, hact, hle⟩

theorem repl_ne_nil_of_actual {α : Type} [DecidableEq α]
    {orig repl : List (Allele α)} {index : Nat}
    (h : (orig.drop index).take repl.length ≠ repl) : repl ≠ [] := by
  intro hnil
  subst hnil
  simp at h

theorem applyChange_ne_nil {α : Type} {orig repl : List (Allele α)}
    {new : Option (List (Allele α))} {index : Nat} (h : repl ≠ []) :
    applyChange orig new index repl ≠ [] := by
  cases new with
  | none => simp [applyChange, h]
  | some nv =>
    rw [applyChange]
    by_cases he : nv.isEmpty <;> simp [he, h]

theorem deriveLoop_some_of_some {α : Type} [DecidableEq α]
    (orig : List (Allele α)) (coding : Nat) :
    ∀ (changes : List (Nat × List (Allele α)))
      (nv : List (Allele α)) (same : Bool), nv ≠ [] →
      ∃ nv', (deriveLoop orig coding changes (some nv) same).1 = some nv'
        ∧ nv' ≠ [] := by
  intro changes
  induction changes with
  | nil => intro nv same h; exact ⟨nv, rfl, h⟩
  | cons q rest ih =>
    intro nv same h
    obtain ⟨index, repl⟩ := q
    rw [deriveLoop]
    by_cases hch : (orig.drop index).take repl.length = repl
    · rw [if_pos hch]; exact ih nv same h
    · rw [if_neg hch]
      exact ih _ _ (applyChange_ne_nil (repl_ne_nil_of_actual hch))

theorem deriveLoop_some_of_actual {α : Type} [DecidableEq α]
    (orig : List (Allele α)) (coding : Nat) :
    ∀ (changes : List (Nat × List (Allele α))) (same : Bool),
      (∃ p ∈ changes, (orig.drop p.1).take p.2.length ≠ p.2) →
      ∃ nv', (deriveLoop orig coding changes none same).1 = some nv'
        ∧ nv' ≠ [] := by
  intro changes
  induction changes with
  | nil =>
    intro same h
    obtain ⟨p, hp, -⟩ := h
    simp at hp
  | cons q rest ih =>
    intro same h
    obtain ⟨index, repl⟩ := q
    rw [deriveLoop]
    by_cases hch : (orig.drop index).take repl.length = repl
    · rw [if_pos hch]
      obtain ⟨p, hp, hact⟩ := h
      rcases List.mem_cons.mp hp with heq | htail
      · subst heq
        exact absurd hch hact
      · exact ih same ⟨p, htail, hact⟩
    · rw [if_neg hch]
      exact deriveLoop_some_of_some orig coding rest _ _
        (applyChange_ne_nil (repl_ne_nil_of_actual hch))

/-- C6: `derive` with an edit list (even the empty one) in which every
replacement subsequence equals the existing alleles at that range returns
the very same gene object (`return self`), not a copy. -/
theorem derive_noop_returns_self {α : Type} [DecidableEq α]
    (g : GeneState α) (changes : List (Nat × List (Allele α)))
    (h : ∀ p ∈ changes, (g.alleles.drop p.1).take p.2.length = p.2) :
    derive g changes = some DeriveResult.selfGene := by
  simp only [derive]
  rw [deriveLoop_noop g.alleles g.coding changes none true h]
  rfl

/-- Witness for C6: a one-edit no-op list on the example gene. -/
theorem derive_noop_returns_self_witness :
    derive (⟨exAlleles, 1, 2, []⟩ : GeneState Int)
        [(1, [Allele.term "x"])] = some DeriveResult.selfGene :=
  derive_noop_returns_self _ _ (by decide)

/-- C4: when every actual change lies strictly beyond the coding index and
at least one actual change occurs, `derive` returns a fresh gene whose
coding index equals the parent's and whose memo table is carried over, so
a context already evaluated on the parent returns its cached value on the
derived gene without the evaluation algorithm running. -/
theorem derive_tail_edit_preserves_cache {α : Type} [DecidableEq α]
    (g : GeneState α) (changes : List (Nat × List (Allele α)))
    (hall : ∀ p ∈ changes,
      (g.alleles.drop p.1).take p.2.length ≠ p.2 → g.coding < p.1)
    (hone : ∃ p ∈ changes, (g.alleles.drop p.1).take p.2.length ≠ p.2) :
    ∃ g', derive g changes = some (DeriveResult.newGene g') ∧
      g'.coding = g.coding ∧ g'.memo = g.memo ∧
      ∀ (env : String → List α → α) (c : Ctx α) (v : α),
        g.memo.lookup c.ident = some v →
        callMemo env g' c = (.ok v, g', false) := by
  obtain ⟨nv', hres1, hne⟩ :=
    deriveLoop_some_of_actual g.alleles g.coding changes true hone
  have hres2 := deriveLoop_same_of_tail g.alleles g.coding changes none hall
  have hemp : nv'.isEmpty = false := by
    cases nv' with
    | nil => exact absurd rfl hne
    | cons a l => rfl
  refine ⟨{ g with alleles := nv' }, ?_, rfl, rfl, ?_⟩
  · simp only [derive]
    rw [hres1, hres2]
    simp [pyFalsy, hemp]
  · intro env c v hv
    simp [callMemo, hv]

/-- Witness for C4: a tail edit on the gene `[1, 'y']` (coding 0) carrying
one cached result for the context of identity 1. -/
theorem derive_tail_edit_preserves_cache_witness :
    derive (⟨tailAlleles, 1, 0, [(1, 9)]⟩ : GeneState Int)
        [(1, [Allele.const 2])]
      = some (DeriveResult.newGene
          ⟨[Allele.const 1, Allele.const 2], 1, 0, [(1, 9)]⟩) ∧
    callMemo exEnv
        (⟨[Allele.const 1, Allele.const 2], 1, 0, [(1, 9)]⟩ : GeneState Int)
        ⟨1, emptyCtx⟩
      = (.ok 9,
          (⟨[Allele.const 1, Allele.const 2], 1, 0, [(1, 9)]⟩ :
            GeneState Int), false) := by
  obtain ⟨g', hd, hcod, hmem, hcall⟩ :=
    derive_tail_edit_preserves_cache
      (⟨tailAlleles, 1, 0, [(1, 9)]⟩ : GeneState Int)
      [(1, [Allele.const 2])] (by decide) (by decide)
  have hconc : derive (⟨tailAlleles, 1, 0, [(1, 9)]⟩ : GeneState Int)
      [(1, [Allele.const 2])]
    = some (DeriveResult.newGene
        ⟨[Allele.const 1, Allele.const 2], 1, 0, [(1, 9)]⟩) := by decide
  have hg : g' = ⟨[Allele.const 1, Allele.const 2], 1, 0, [(1, 9)]⟩ :=
    DeriveResult.newGene.inj (Option.some.inj (hd.symm.trans hconc))
  refine ⟨hconc, ?_⟩
  have := hcall exEnv ⟨1, emptyCtx⟩ 9 rfl
  rw [hg] at this
  exact this

/-- C5: an edit list with an actual change at or before the coding index:
whenever `derive` returns at all, it returns a fresh gene whose coding
index has been recomputed from the edited alleles and whose memo table is
empty, so re-evaluating any context runs the evaluation algorithm. -/
theorem derive_coding_edit_clears_cache {α : Type} [DecidableEq α]
    (g : GeneState α) (changes : List (Nat × List (Allele α)))
    (r : DeriveResult α)
    (hone : ∃ p ∈ changes,
      (g.alleles.drop p.1).take p.2.length ≠ p.2 ∧ p.1 ≤ g.coding)
    (hrun : derive g changes = some r) :
    ∃ g', r = DeriveResult.newGene g' ∧
      findCoding g'.alleles = some g'.coding ∧ g'.memo = [] ∧
      ∀ (env : String → List α → α) (c : Ctx α),
        (callMemo env g' c).2.2 = true := by
  have hone' : ∃ p ∈ changes, (g.alleles.drop p.1).take p.2.length ≠ p.2 :=
    let ⟨p, hp, hact, _⟩ := hone
    ⟨p, hp, hact⟩
  obtain ⟨nv', hres1, hne⟩ :=
    deriveLoop_some_of_actual g.alleles g.coding changes true hone'
  have hres2 :=
    deriveLoop_false_of_coding_edit g.alleles g.coding changes none true hone
  have hemp : nv'.isEmpty = false := by
    cases nv' with
    | nil => exact absurd rfl hne
    | cons a l => rfl
  simp only [derive] at hrun
  rw [hres1, hres2] at hrun
  simp only [pyFalsy, hemp, Bool.false_eq_true, if_false, Option.getD_some] at hrun
  cases hfc : findCoding nv' with
  | none =>
    rw [hfc] at hrun
    exact absurd hrun (by simp)
  | some c =>
    rw [hfc] at hrun
    refine ⟨⟨nv', g.head, c, []⟩, (Option.some.inj hrun).symm, by simpa using hfc,
      rfl, ?_⟩
    intro env c'
    cases hcg : callGene env nv' c c'.attrs with
    | ok v => simp [callMemo, hcg]
    | error e => simp [callMemo, hcg]

/-- Witness for C5: replacing allele 0 of the gene `[1, 'y']`. -/
theorem derive_coding_edit_clears_cache_witness :
    findCoding [Allele.const (5 : Int), Allele.term "y"] = some 0 ∧
    (callMemo exEnv
        (⟨[Allele.const 5, Allele.term "y"], 1, 0, []⟩ : GeneState Int)
        ⟨3, tailCtx⟩).2.2 = true := by
  obtain ⟨g', hr, hfc, hmem, hran⟩ :=
    derive_coding_edit_clears_cache
      (⟨tailAlleles, 1, 0, []⟩ : GeneState Int)
      [(0, [Allele.const 5])]
      (DeriveResult.newGene
        ⟨[Allele.const 5, Allele.term "y"], 1, 0, []⟩)
      (by decide) (by decide)
  have hg : g' = ⟨[Allele.const 5, Allele.term "y"], 1, 0, []⟩ :=
    (DeriveResult.newGene.inj hr).symm
  rw [hg] at hfc hran
  exact ⟨by simpa using hfc, hran exEnv ⟨3, tailCtx⟩⟩

/-- C7: memoization is per gene instance and keyed by context identity: a
second call with the same context object returns the first call's result
with the gene unchanged and without the evaluation algorithm running,
while two distinct context objects with identical attribute values each
trigger their own evaluation and share no cache entry. -/
theorem memoization_identity_keyed {α : Type}
    (env : String → List α → α) (g : GeneState α) :
    (∀ (c : Ctx α) (v : α) (g' : GeneState α) (b : Bool),
      callMemo env g c = (.ok v, g', b) →
      callMemo env g' c = (.ok v, g', false)) ∧
    (∀ c₁ c₂ : Ctx α,
      g.memo.lookup c₁.ident = none → g.memo.lookup c₂.ident = none →
      c₁.ident ≠ c₂.ident → c₁.attrs = c₂.attrs →
      (callMemo env g c₁).2.2 = true ∧
      (callMemo env (callMemo env g c₁).2.1 c₂).2.2 = true) := by
  constructor
  · intro c v g' b hfirst
    cases hlk : g.memo.lookup c.ident with
    | some w =>
      have h1 : callMemo env g c = (.ok w, g, false) := by
        simp [callMemo, hlk]
      rw [h1] at hfirst
      have hw : w = v := Except.ok.inj (congrArg Prod.fst hfirst)
      have hg : g = g' := congrArg (fun t => t.2.1) hfirst
      rw [← hg, h1, hw]
    | none =>
      cases hcg : callGene env g.alleles g.coding c.attrs with
      | error e =>
        have h1 : callMemo env g c = (.error e, g, true) := by
          simp [callMemo, hlk, hcg]
        rw [h1] at hfirst
        exact absurd (congrArg Prod.fst hfirst) (by simp)
      | ok w =>
        have h1 : callMemo env g c
            = (.ok w, { g with memo := (c.ident, w) :: g.memo }, true) := by
          simp [callMemo, hlk, hcg]
        rw [h1] at hfirst
        have hw : w = v := Except.ok.inj (congrArg Prod.fst hfirst)
        have hg : ({ g with memo := (c.ident, w) :: g.memo } : GeneState α)
            = g' := congrArg (fun t => t.2.1) hfirst
        have h2 : callMemo env { g with memo := (c.ident, w) :: g.memo } c
            = (.ok w, { g with memo := (c.ident, w) :: g.memo }, false) := by
          simp [callMemo, List.lookup]
        rw [← hg, h2, hw]
  · intro c₁ c₂ h1 h2 hne hattr
    have hb1 : (callMemo env g c₁).2.2 = true := by
      cases hcg : callGene env g.alleles g.coding c₁.attrs with
      | ok w => simp [callMemo, h1, hcg]
      | error e => simp [callMemo, h1, hcg]
    refine ⟨hb1, ?_⟩
    cases hcg : callGene env g.alleles g.coding c₁.attrs with
    | error e =>
      have hfst : callMemo env g c₁ = (.error e, g, true) := by
        simp [callMemo, h1, hcg]
      rw [hfst]
      cases hcg2 : callGene env g.alleles g.coding c₂.attrs with
      | ok w => simp [callMemo, h2, hcg2]
      | error e2 => simp [callMemo, h2, hcg2]
    | ok w =>
      have hfst : callMemo env g c₁
          = (.ok w, { g with memo := (c₁.ident, w) :: g.memo }, true) := by
        simp [callMemo, h1, hcg]
      rw [hfst]
      have hbe : (c₂.ident == c₁.ident) = false := by
        rw [beq_eq_false_iff_ne]
        exact Ne.symm hne
      have hlk2 : List.lookup c₂.ident ((c₁.ident, w) :: g.memo) = none := by
        simp [List.lookup, hbe, h2]
      cases hcg2 : callGene env g.alleles g.coding c₂.attrs with
      | ok w2 => simp [callMemo, hlk2, hcg2]
      | error e2 => simp [callMemo, hlk2, hcg2]

/-- Witness for C7: the example gene, its context of identity 1, and a
second context of identity 2 with the same attributes. -/
theorem memoization_identity_keyed_witness :
    callMemo exEnv (⟨exAlleles, 1, 2, [(1, 8)]⟩ : GeneState Int) exCtx
        = (.ok 8, (⟨exAlleles, 1, 2, [(1, 8)]⟩ : GeneState Int), false) ∧
    (callMemo exEnv (⟨exAlleles, 1, 2, []⟩ : GeneState Int) exCtx).2.2
        = true ∧
    (callMemo exEnv
        (callMemo exEnv (⟨exAlleles, 1, 2, []⟩ : GeneState Int) exCtx).2.1
        ⟨2, exCtx.attrs⟩).2.2 = true := by
  have h := memoization_identity_keyed exEnv
    (⟨exAlleles, 1, 2, []⟩ : GeneState Int)
  refine ⟨?_, ?_, ?_⟩
  · exact h.1 exCtx 8 ⟨exAlleles, 1, 2, [(1, 8)]⟩ true rfl
  · exact (h.2 exCtx ⟨2, exCtx.attrs⟩ rfl rfl (by decide) rfl).1
  · exact (h.2 exCtx ⟨2, exCtx.attrs⟩ rfl rfl (by decide) rfl).2

/-- `string.digits`. -/
def pyDigits : String := "0123456789"

/-- The display header built in `Population.__init__` from the length of
the first chromosome: the digit cycle up to that length, then a dashed
rule of the same width (the `+=` reads the header before appending). -/
def mkHeader (l : Nat) : String :=
  let s := String.join (List.replicate (l / 10) pyDigits)
    ++ pyDigits.take (l % 10)
  s ++ "\n" ++ String.mk (List.replicate s.length '-')

/-- `Population` state: target size, the active buffer, the scratch
buffer for the next generation (`None` placeholders at construction), the
generation counter and the display header.  The configuration fields
`head`, `genes` and `linker` are stored by `__init__` but never read by
the modelled operations and are elided. -/
structure Population (χ : Type) where
  size : Nat
  population : List χ
  nextPop : List (Option χ)
  age : Nat
  header : String
deriving DecidableEq

/-- Draws the first `size` items of the factory's production stream
(`izip(xrange(size), cls.generate(...))` stops at whichever of the two
runs out first). -/
def takeFromGen {χ : Type} (gen : Nat → Option χ) : Nat → Nat → List χ
  | 0, _ => []
  | n + 1, i =>
    match gen i with
    | none => []
    | some c => c :: takeFromGen gen n (i + 1)

/-- `Population.__init__` with `chromLen` standing for `len` on a
chromosome: builds the initial generation, the `None` placeholder scratch
buffer, and the header; an empty population (its first chromosome
missing, an `IndexError`) raises `ValueError` instead of completing. -/
def initPopulation {χ : Type} (chromLen : χ → Nat) (gen : Nat → Option χ)
    (size : Nat) : Option (Population χ) :=
  match takeFromGen gen size 0 with
  | [] => none
  | c :: rest =>
    some ⟨size, c :: rest, List.replicate size none, 1,
      mkHeader (chromLen c)⟩

/-- `Population.best`: `max(self.population, key=attrgetter('fitness'))`.
Python's `max` keeps the current leader on ties, so the first maximum
wins; an empty sequence raises. -/
def bestChrom {χ : Type} (fitness : χ → Int) : List χ → Option χ
  | [] => none
  | c :: cs =>
    some (cs.foldl (fun b x => if fitness b < fitness x then x else b) c)

/-- `random.choice(seq)`: the oracle value `r` picks the index; an empty
sequence raises. -/
def randomChoice {χ : Type} (l : List χ) (r : Nat) : Option χ :=
  l[r % l.length]?

/-- Left-to-right effectful map over `Option`, used for the selection
loop and the buffer swap. -/
def optionMapList {χ γ : Type} (f : χ → Option γ) :
    List χ → Option (List γ)
  | [] => some []
  | b :: bs =>
    match f b, optionMapList f bs with
    | some c, some cs => some (c :: cs)
    | _, _ => none

/-- Writes `vals` into the leading slots of the scratch buffer
(`self._next_pop[i] = ...`); running past the end of the buffer is an
`IndexError`. -/
def writeSlots {χ : Type} (buf : List (Option χ)) (vals : List χ) :
    Option (List (Option χ)) :=
  if vals.length ≤ buf.length then
    some (vals.map some ++ buf.drop vals.length)
  else none

/-- `Population.cycle` with the random draws supplied by the oracle
`rand`: slot 0 of the scratch buffer receives the current best chromosome
(elitism), slots `1 .. size-1` receive random choices from the current
population, then the buffers swap and the age increments.  A leftover
`None` placeholder surfacing in the swapped-in buffer (possible only on
mismatched buffer sizes; Python would fail at the next fitness access) is
modelled as an error at the swap. -/
def cycle {χ : Type} (fitness : χ → Int) (rand : Nat → Nat)
    (p : Population χ) : Option (Population χ) :=
  match bestChrom fitness p.population with
  | none => none
  | some b =>
    match optionMapList (fun i => randomChoice p.population (rand i))
        (List.range (p.size - 1)) with
    | none => none
    | some picks =>
      match writeSlots p.nextPop (b :: picks) with
      | none => none
      | some buf =>
        match optionMapList id buf with
        | none => none
        | some newPop =>
          some { p with population := newPop,
                        nextPop := p.population.map some,
                        age := p.age + 1 }

theorem optionMapList_all_some {χ γ : Type} (f : χ → Option γ) :
    ∀ l : List χ, (∀ x ∈ l, ∃ y, f x = some y) →
      ∃ out, optionMapList f l = some out ∧ out.length = l.length := by
  intro l
  induction l with
  | nil => intro _; exact ⟨[], rfl, rfl⟩
  | cons b bs ih =>
    intro h
    obtain ⟨y, hy⟩ := h b (List.mem_cons_self _ _)
    obtain ⟨out, hout, hlen⟩ :=
      ih fun x hx => h x (List.mem_cons_of_mem _ hx)
    refine ⟨y :: out, ?_, by simp [hlen]⟩
    rw [optionMapList, hy, hout]

theorem optionMapList_id_map_some {χ : Type} :
    ∀ l : List χ, optionMapList id (l.map some) = some l := by
  intro l
  induction l with
  | nil => rfl
  | cons b bs ih => simp [optionMapList, ih]

theorem randomChoice_some {χ : Type} (l : List χ) (r : Nat)
    (h : l ≠ []) : ∃ c, randomChoice l r = some c := by
  have hlen : 0 < l.length := List.length_pos.mpr h
  have hr : r % l.length < l.length := Nat.mod_lt _ hlen
  exact ⟨l.get ⟨r % l.length, hr⟩, by simp [randomChoice, hr]⟩

/-- C8: for every population satisfying the construction invariant (both
buffers hold exactly `size` elements, with `size > 0`) and every outcome
of the random draws, `cycle` succeeds, increments `age` by exactly one,
keeps the population size unchanged, and stores the generation's best
chromosome, unmutated, in slot 0 of the new buffer. -/
theorem cycle_invariants {χ : Type} (fitness : χ → Int) (rand : Nat → Nat)
    (p : Population χ) (hpop : p.population.length = p.size)
    (hbuf : p.nextPop.length = p.size) (hpos : 0 < p.size) :
    ∃ p' b, bestChrom fitness p.population = some b ∧
      cycle fitness rand p = some p' ∧
      p'.age = p.age + 1 ∧
      p'.population.length = p.population.length ∧
      p'.population.head? = some b := by
  have hne : p.population ≠ [] := by
    intro hnil
    rw [hnil] at hpop
    simp at hpop
    omega
  obtain ⟨c, cs, hcons⟩ := List.exists_cons_of_ne_nil hne
  have hbest : ∃ b, bestChrom fitness p.population = some b := by
    rw [hcons]; exact ⟨_, rfl⟩
  obtain ⟨b, hb⟩ := hbest
  obtain ⟨picks, hpicks, hpicklen⟩ :=
    optionMapList_all_some (fun i => randomChoice p.population (rand i))
      (List.range (p.size - 1))
      (fun i _ => randomChoice_some p.population (rand i) hne)
  have hvallen : (b :: picks).length = p.size := by
    simp [hpicklen]
    omega
  have hwrite : writeSlots p.nextPop (b :: picks)
      = some ((b :: picks).map some) := by
    rw [writeSlots, if_pos (by omega)]
    have hdrop : p.nextPop.drop (b :: picks).length = [] := by
      apply List.drop_eq_nil_of_le
      omega
    rw [hdrop, List.append_nil]
  refine ⟨{ p with population := b :: picks,
                   nextPop := p.population.map some,
                   age := p.age + 1 }, b, hb, ?_, rfl, ?_, rfl⟩
  · simp [cycle, hb, hpicks, hwrite]
    rw [show (some b :: List.map some picks) = (b :: picks).map some
        from rfl, optionMapList_id_map_some]
  · simp [hpicklen]
    omega

/-- Witness for C8: a two-chromosome population of integers with identity
fitness and a constant random oracle. -/
theorem cycle_invariants_witness :
    cycle (fun x : Int => x) (fun _ => 0)
        ⟨2, [3, 7], [none, none], 1, ""⟩
      = some ⟨2, [7, 3], [some 3, some 7], 2, ""⟩ ∧
    (⟨2, [7, 3], [some 3, some 7], 2, ""⟩ : Population Int).age = 1 + 1 ∧
    ([7, 3] : List Int).head? = bestChrom (fun x : Int => x) [3, 7] := by
  obtain ⟨p', b, hbest, hcyc, hage, hlen, hhead⟩ :=
    cycle_invariants (fun x : Int => x) (fun _ => 0)
      ⟨2, [3, 7], [none, none], 1, ""⟩ rfl rfl (by decide)
  have hconc : cycle (fun x : Int => x) (fun _ => 0)
      (⟨2, [3, 7], [none, none], 1, ""⟩ : Population Int)
    = some ⟨2, [7, 3], [some 3, some 7], 2, ""⟩ := by decide
  have hp : p' = ⟨2, [7, 3], [some 3, some 7], 2, ""⟩ :=
    Option.some.inj (hcyc.symm.trans hconc)
  refine ⟨hconc, ?_, ?_⟩
  · rw [← hp]
    exact hage
  · rw [hp] at hhead
    exact hhead.trans hbest.symm

/-- C9: constructing a population of size 0, or from a factory that
yields nothing, raises the configuration error instead of completing;
constructing with size 10 from a productive factory yields exactly 10
chromosomes and age 1. -/
theorem population_construction {χ : Type} (chromLen : χ → Nat)
    (gen : Nat → Option χ) :
    initPopulation chromLen gen 0 = none ∧
    (gen 0 = none → ∀ size, initPopulation chromLen gen size = none) ∧
    ((∀ i, (gen i).isSome) →
      ∃ p, initPopulation chromLen gen 10 = some p ∧
        p.population.length = 10 ∧ p.age = 1) := by
  have hlen : ∀ (n s : Nat), (∀ i, (gen i).isSome) →
      (takeFromGen gen n s).length = n := by
    intro n
    induction n with
    | zero => intro s _; rfl
    | succ m ih =>
      intro s hall
      rw [takeFromGen]
      cases hg : gen s with
      | none => exact absurd (hg ▸ hall s) (by simp)
      | some c => simp [ih (s + 1) hall]
  refine ⟨rfl, ?_, ?_⟩
  · intro h0 size
    cases size with
    | zero => rfl
    | succ m =>
      rw [initPopulation, takeFromGen, h0]
  · intro hall
    cases hpop : takeFromGen gen 10 0 with
    | nil =>
      have := hlen 10 0 hall
      rw [hpop] at this
      simp at this
    | cons c rest =>
      refine ⟨⟨10, c :: rest, List.replicate 10 none, 1,
        mkHeader (chromLen c)⟩, ?_, ?_, rfl⟩
      · rw [initPopulation, hpop]
      · have := hlen 10 0 hall
        rw [hpop] at this
        simpa using this

/-- Chromosome length used by the C9 witness. -/
def wChromLen : Int → Nat := fun _ => 3

/-- Productive factory used by the C9 witness. -/
def wGen : Nat → Option Int := fun i => some (i : Int)

/-- Size and age of a population, for stating the C9 witness. -/
def popSizeAge {χ : Type} (p : Population χ) : Nat × Nat :=
  (p.population.length, p.age)

/-- Witness for C9: the productive integer factory. -/
theorem population_construction_witness :
    initPopulation wChromLen wGen 0 = none ∧
    (initPopulation wChromLen wGen 10).map popSizeAge = some (10, 1) := by
  obtain ⟨h0, -, hprod⟩ := population_construction wChromLen wGen
  obtain ⟨p, hp, hplen, hpage⟩ := hprod fun i => rfl
  refine ⟨h0, ?_⟩
  rw [hp]
  simp [popSizeAge, hplen, hpage]

/-- A well-formed Karva genotype: some nonempty prefix, within bounds,
supplies exactly the slots its functions demand, so the decoded tree is
fully determined by the arities. -/
def WellFormed {α : Type} (alleles : List (Allele α)) : Prop :=
  ∃ k, 0 < k ∧ k ≤ alleles.length ∧ slotsNeeded alleles k = k

theorem codingLoop_progress {α : Type} (alleles : List (Allele α))
    (k0 : Nat) (hk0 : slotsNeeded alleles k0 = k0)
    (hk0len : k0 ≤ alleles.length) :
    ∀ fuel index args : Nat,
      index + args = slotsNeeded alleles index →
      index ≤ k0 →
      k0 - index < fuel →
      ∃ c, codingLoop alleles fuel index args = some c := by
  intro fuel
  induction fuel with
  | zero => intro index args _ _ h; omega
  | succ fuel ih =>
    intro index args hinv hle hfuel
    rw [codingLoop]
    by_cases hargs : args = 0
    · rw [if_pos hargs]
      exact ⟨index - 1, rfl⟩
    · rw [if_neg hargs]
      have hlt : index < k0 := by
        rcases Nat.lt_or_ge index k0 with h | h
        · exact h
        · have heq : index = k0 := le_antisymm hle h
          rw [heq, hk0] at hinv
          omega
      have hbound : index + args ≤ k0 := by
        have := slotsNeeded_mono alleles (le_of_lt hlt)
        omega
      rw [if_pos (le_trans hbound hk0len)]
      refine ih (index + args) _ ?_ hbound (by omega)
      rw [slotsNeeded_add, ← hinv]

theorem findCoding_progress {α : Type} (alleles : List (Allele α))
    (hwf : WellFormed alleles) : ∃ c, findCoding alleles = some c := by
  obtain ⟨k, -, hklen, hk⟩ := hwf
  refine codingLoop_progress alleles k hk hklen (alleles.length + 2) 0 1
    ?_ (Nat.zero_le _) (by omega)
  simp [slotsNeeded, sumArities]

theorem slotsNeeded_succ {α : Type} (alleles : List (Allele α)) (k : Nat)
    (a : Allele α) (h : alleles[k]? = some a) :
    slotsNeeded alleles (k + 1) = slotsNeeded alleles k + a.arity := by
  rw [slotsNeeded, slotsNeeded, List.take_succ, h]
  have hs : sumArities (alleles.take k ++ (some a).toList)
      = sumArities (alleles.take k) + a.arity := by
    rw [sumArities_append]
    simp [sumArities]
  omega

theorem slotsNeeded_gt {α : Type} (alleles : List (Allele α)) (c : Nat)
    (hmin : ∀ k, k < c + 1 → slotsNeeded alleles k ≠ k) :
    ∀ k, k < c + 1 → k < slotsNeeded alleles k := by
  intro k
  induction k with
  | zero =>
    intro _
    have := slotsNeeded_pos alleles 0
    omega
  | succ k ih =>
    intro h
    have h1 := ih (by omega)
    have h2 := slotsNeeded_mono alleles (show k ≤ k + 1 by omega)
    have h3 := hmin (k + 1) h
    omega

theorem value_term_some {α : Type} (attrs : String → Option α) (n : String)
    (w : Option α) (h : value attrs (Allele.term n) = .ok w) :
    ∃ v, w = some v := by
  rw [value] at h
  cases hn : attrs n with
  | none => rw [hn] at h; exact absurd h (by simp)
  | some v => rw [hn] at h; exact ⟨v, (Except.ok.inj h).symm⟩

theorem buildEvaluation_get {α : Type} (attrs : String → Option α) :
    ∀ (alleles : List (Allele α)) (ev : List (Option α)),
      buildEvaluation attrs alleles = .ok ev →
      ∀ (j : Nat) (a : Allele α), alleles[j]? = some a →
        ∃ w, value attrs a = .ok w ∧ ev[j]? = some w := by
  intro alleles
  induction alleles with
  | nil => intro ev _ j a ha; simp at ha
  | cons x rest ih =>
    intro ev hev j a ha
    rw [buildEvaluation] at hev
    cases hx : value attrs x with
    | error e =>
      rw [hx] at hev
      cases hrest : buildEvaluation attrs rest <;> rw [hrest] at hev <;>
        exact absurd hev (by simp)
    | ok v =>
      cases hrest : buildEvaluation attrs rest with
      | error e =>
        rw [hx, hrest] at hev
        exact absurd hev (by simp)
      | ok vs =>
        rw [hx, hrest] at hev
        have hev' : v :: vs = ev := Except.ok.inj hev
        subst hev'
        cases j with
        | zero =>
          have hax : x = a := by simpa using ha
          subst hax
          exact ⟨v, hx, by simp⟩
        | succ m =>
          have ham : rest[m]? = some a := by simpa using ha
          obtain ⟨w, hw1, hw2⟩ := ih vs hrest m a ham
          exact ⟨w, hw1, by simpa using hw2⟩

theorem extractArgs_of_forall_some {α : Type} :
    ∀ l : List (Option α),
      (∀ j, j < l.length → ∃ v, l[j]? = some (some v)) →
      ∃ vs, extractArgs l = some vs := by
  intro l
  induction l with
  | nil => intro _; exact ⟨[], rfl⟩
  | cons x xs ih =>
    intro h
    obtain ⟨v, hv⟩ := h 0 (by simp)
    have hx : x = some v := by simpa using hv
    subst hx
    obtain ⟨vs, hvs⟩ := ih fun j hj => by
      have h2 := h (j + 1) (by simp only [List.length_cons]; omega)
      simpa using h2
    exact ⟨v :: vs, by simp [extractArgs, hvs]⟩

theorem evalLoop_safe {α : Type} (env : String → List α → α)
    (alleles : List (Allele α)) (c : Nat) (attrs : String → Option α)
    (ev0 : List (Option α))
    (hclt : c < alleles.length)
    (hclose : slotsNeeded alleles (c + 1) = c + 1)
    (hmin : ∀ k, k < c + 1 → slotsNeeded alleles k ≠ k)
    (hev0 : buildEvaluation attrs alleles = .ok ev0) :
    ∀ k : Nat, k ≤ c + 1 → ∀ ev : List (Option α),
      ev.length = alleles.length →
      (∀ j, j < k → ev[j]? = ev0[j]?) →
      (∀ j, k ≤ j → j ≤ c → ∃ v, ev[j]? = some (some v)) →
      ∃ ev' idx,
        evalLoop env alleles k ev (slotsNeeded alleles k) = .ok (ev', idx) ∧
        ∀ j, j ≤ c → ∃ v, ev'[j]? = some (some v) := by
  intro k
  induction k with
  | zero =>
    intro _ ev _ _ hsome
    exact ⟨ev, slotsNeeded alleles 0, rfl,
      fun j hj => hsome j (Nat.zero_le _) hj⟩
  | succ k ih =>
    intro hk ev hlen hbelow hsome
    have hkc : k ≤ c := by omega
    have hkl : k < alleles.length := by omega
    have ha : alleles[k]? = some alleles[k] := List.getElem?_eq_getElem hkl
    obtain ⟨w, hwval, hw0⟩ :=
      buildEvaluation_get attrs alleles ev0 hev0 k alleles[k] ha
    cases haval : alleles[k] with
    | term n =>
      rw [haval] at ha hwval
      simp only [evalLoop, ha]
      have hstep : slotsNeeded alleles (k + 1) = slotsNeeded alleles k := by
        have := slotsNeeded_succ alleles k (Allele.term n) ha
        simpa [Allele.arity] using this
      rw [hstep]
      refine ih (by omega) ev hlen (fun j hj => hbelow j (by omega)) ?_
      intro j hj1 hj2
      rcases Nat.eq_or_lt_of_le hj1 with heq | hlt
      · obtain ⟨v, hv⟩ := value_term_some attrs n w hwval
        refine ⟨v, ?_⟩
        rw [← heq, hbelow k (Nat.lt_succ_self k), hw0, hv]
      · exact hsome j (by omega) hj2
    | const x =>
      rw [haval] at ha hwval
      simp only [evalLoop, ha]
      have hstep : slotsNeeded alleles (k + 1) = slotsNeeded alleles k := by
        have := slotsNeeded_succ alleles k (Allele.const x) ha
        simpa [Allele.arity] using this
      rw [hstep]
      refine ih (by omega) ev hlen (fun j hj => hbelow j (by omega)) ?_
      intro j hj1 hj2
      rcases Nat.eq_or_lt_of_le hj1 with heq | hlt
      · refine ⟨x, ?_⟩
        have hvx : w = some x := (Except.ok.inj hwval).symm
        rw [← heq, hbelow k (Nat.lt_succ_self k), hw0, hvx]
      · exact hsome j (by omega) hj2
    | func n num =>
      rw [haval] at ha hwval
      simp only [evalLoop, ha]
      have hstep : slotsNeeded alleles (k + 1)
          = slotsNeeded alleles k + num := by
        have := slotsNeeded_succ alleles k (Allele.func n num) ha
        simpa [Allele.arity] using this
      have hidx_le : slotsNeeded alleles (k + 1) ≤ c + 1 := by
        have := slotsNeeded_mono alleles (show k + 1 ≤ c + 1 by omega)
        omega
      have hguard : num ≤ slotsNeeded alleles (k + 1) ∧
          slotsNeeded alleles (k + 1) ≤ ev.length := by
        have := slotsNeeded_pos alleles k
        constructor
        · omega
        · omega
      rw [if_pos hguard]
      have hgt := slotsNeeded_gt alleles c hmin k (by omega)
      have hlo : slotsNeeded alleles (k + 1) - num
          = slotsNeeded alleles k := by omega
      have hslice : ∀ j,
          j < ((ev.drop (slotsNeeded alleles (k + 1) - num)).take num).length →
          ∃ v, ((ev.drop (slotsNeeded alleles (k + 1) - num)).take num)[j]?
            = some (some v) := by
        intro j hj
        have hjnum : j < num :=
          lt_of_lt_of_le hj
            (by rw [List.length_take]; exact min_le_left _ _)
        rw [List.getElem?_take, if_pos hjnum, List.getElem?_drop]
        refine hsome _ ?_ ?_
        · omega
        · omega
      obtain ⟨vs, hvs⟩ := extractArgs_of_forall_some _ hslice
      simp only [hvs]
      rw [hlo]
      refine ih (by omega) (ev.set k (some (env n vs)))
        (by simp [hlen]) ?_ ?_
      · intro j hj
        rw [List.getElem?_set_ne (by omega)]
        exact hbelow j (by omega)
      · intro j hj1 hj2
        rcases Nat.eq_or_lt_of_le hj1 with heq | hlt
        · refine ⟨env n vs, ?_⟩
          rw [← heq, List.getElem?_set_eq_of_lt _ (by omega)]
        · rw [List.getElem?_set_ne (by omega)]
          exact hsome j (by omega) hj2

/-- C10: for every well-formed gene, `_find_coding` terminates inside the
allele sequence (no index runs past the end, and `coding + 1` is at most
`len(alleles)`), and the reverse cursor arithmetic of `__call__` stays in
range: whenever the step-1 evaluation list builds, the guarded sweep
completes without any out-of-range slice and yields a value in slot 0. -/
theorem gene_access_in_bounds {α : Type} (alleles : List (Allele α))
    (hwf : WellFormed alleles) :
    ∃ c, findCoding alleles = some c ∧ c + 1 ≤ alleles.length ∧
      ∀ (env : String → List α → α) (attrs : String → Option α)
        (ev0 : List (Option α)),
        buildEvaluation attrs alleles = .ok ev0 →
        ∃ v, callGene env alleles c attrs = .ok v := by
  obtain ⟨c, hfc⟩ := findCoding_progress alleles hwf
  obtain ⟨hclt, hclose, hmin⟩ := findCoding_sound alleles c hfc
  refine ⟨c, hfc, by omega, ?_⟩
  intro env attrs ev0 hev0
  have hlen0 : ev0.length = alleles.length :=
    (buildEvaluation_props attrs alleles).1 ev0 hev0
  obtain ⟨ev', idx, hrun, hslots⟩ :=
    evalLoop_safe env alleles c attrs ev0 hclt hclose hmin hev0 (c + 1)
      (le_refl _) ev0 hlen0 (fun j _ => rfl)
      (fun j hj1 hj2 => absurd hj1 (by omega))
  rw [hclose] at hrun
  obtain ⟨v, hv⟩ := hslots 0 (Nat.zero_le _)
  refine ⟨v, ?_⟩
  simp only [callGene, hev0, hrun, hv]

/-- Witness for C10 on the gene `[add, 'x', 3]`. -/
theorem gene_access_in_bounds_witness :
    findCoding exAlleles = some 2 ∧
    callGene exEnv exAlleles 2 exCtx.attrs = .ok 8 := by
  obtain ⟨c, hfc, hle, hcall⟩ := gene_access_in_bounds exAlleles
    ⟨3, by decide, by decide, by decide⟩
  have hc : c = 2 := Option.some.inj (hfc.symm.trans (by decide))
  subst hc
  obtain ⟨v, hv⟩ := hcall exEnv exCtx.attrs [none, some 5, some 3] rfl
  exact ⟨hfc, rfl⟩

end PyGep
